import Mathlib

/-!
Verification of the mimic scripted-editor core: a shallow embedding of the
document/marker model (`src/ui/document.rs`), the playback timer and the
instruction interpreter (`src/ui/editor.rs`), and the source-to-runtime
compiler (`src/ui/compile.rs`), together with theorems settling the spec
claims about them.

Strings are embedded as `List Char`; Rust byte offsets are modelled by
summing `Char.utf8Size` over characters, and Rust `Duration` values as
natural numbers (one unit per smallest relevant subdivision; all Duration
arithmetic in the source is add/saturating-sub/compare, which is unit
independent).
-/

namespace Mimic

/-- Modelled from the spec: terminal display width of a character (the
`unicode_width` crate is an external collaborator, not part of the
repository sources).  Per the spec a character occupies 0, 1 or 2 display
columns: control characters and combining marks take 0 columns, CJK
ideographs take 2, everything else takes 1.  The source always uses
`c.width().unwrap_or(0)`, so width-less control characters count as 0. -/
def charWidth (c : Char) : Nat :=
  if c.toNat < 0x20 then 0
  else if 0x300 ≤ c.toNat ∧ c.toNat ≤ 0x36F then 0
  else if 0x4E00 ≤ c.toNat ∧ c.toNat ≤ 0x9FFF then 2
  else 1

/-- Byte length of a string (`str::len` in the source). -/
def strLen (cs : List Char) : Nat := (cs.map Char.utf8Size).sum

/-- Display width of a string (`UnicodeWidthStr::width` in the source). -/
def strWidth (cs : List Char) : Nat := (cs.map charWidth).sum

/-- Rust `&s[off..]`: drop the first `off` bytes of a string.  Total
stand-in: when `off` is not on a character boundary (the source would
panic there; it only ever slices on boundaries) the partially covered
character is dropped. -/
def dropBytes (off : Nat) : List Char → List Char
  | [] => []
  | c :: rest => if off = 0 then c :: rest else dropBytes (off - c.utf8Size) rest

/-- Rust `&s[..off]`: take the first `off` bytes of a string (total
stand-in as for `dropBytes`; a partially covered final character is
kept). -/
def takeBytes (off : Nat) : List Char → List Char
  | [] => []
  | c :: rest => if off = 0 then [] else c :: takeBytes (off - c.utf8Size) rest

/-- Rust `str::split_inclusive('\n')`: the lines of a string, each line
keeping its trailing newline; the empty string yields no lines. -/
def splitInclusive : List Char → List (List Char)
  | [] => []
  | c :: rest =>
    if c = '\n' then ['\n'] :: splitInclusive rest
    else
      match splitInclusive rest with
      | [] => [[c]]
      | l :: ls => (c :: l) :: ls

/-- Rust `str::split('\n')` as a list of lines ("" has one empty line;
a trailing newline yields a final empty line). -/
def linesOf : List Char → List (List Char)
  | [] => [[]]
  | c :: rest =>
    if c = '\n' then [] :: linesOf rest
    else
      match linesOf rest with
      | [] => [[c]]
      | l :: ls => (c :: l) :: ls

/-- Number of newline characters in a string. -/
def nlCount (cs : List Char) : Nat := (cs.filter (fun c => c = '\n')).length

-- -----------------------------------------------------------------------------
--   - Positions, sizes, regions (anathema::geometry) -
-- -----------------------------------------------------------------------------

/-- `anathema::geometry::Pos`: a signed (column, row) pair. -/
structure Pos where
  x : Int
  y : Int
deriving DecidableEq, Repr

def Pos.add (a b : Pos) : Pos := ⟨a.x + b.x, a.y + b.y⟩

/-- `anathema::geometry::Size` (width, height). -/
structure Size where
  width : Nat
  height : Nat
deriving DecidableEq, Repr

def Size.zero : Size := ⟨0, 0⟩

/-- `anathema::geometry::Region`: rectangle given by its inclusive
top-left corner `rFrom` and exclusive bottom-right corner `rTo`
(source field names `from`/`to`; `Region::from((pos, size))` sets
`to = pos + size`, as pinned down by the `delete_region` test). -/
structure Region where
  rFrom : Pos
  rTo : Pos
deriving DecidableEq, Repr

def Region.ofPosSize (pos : Pos) (size : Size) : Region :=
  ⟨pos, ⟨pos.x + (size.width : Int), pos.y + (size.height : Int)⟩⟩

-- -----------------------------------------------------------------------------
--   - Markers (spec-modelled) -
-- -----------------------------------------------------------------------------

/-- Modelled from the spec: the `Markers` index of `src/ui/markers.rs`
(missing from the sources; only its callers are present).  A mapping
from marker name to the row the marker is anchored to. -/
abbrev Markers := List (String × Nat)

/-- Modelled from the spec: `Markers::get` — look a marker's row up by
name. -/
def Markers.get : Markers → String → Option Nat
  | [], _ => none
  | m :: rest, key => if m.1 = key then some m.2 else Markers.get rest key

/-- Modelled from the spec: `Markers::offset_after(row, n)` — "any
insertion that adds N newline characters at or before row R shifts every
marker at or after R down by N". -/
def Markers.offsetAfter (ms : Markers) (row : Nat) (n : Nat) : Markers :=
  ms.map (fun m => if row ≤ m.2 then (m.1, m.2 + n) else m)

/-- Modelled from the spec: `Markers::merge(row, markers)` — register
markers extracted from typed content, anchored relative to `row`. -/
def Markers.merge (ms : Markers) (row : Nat) (new : Markers) : Markers :=
  ms ++ new.map (fun m => (m.1, m.2 + row))

/-- Modelled from the spec: `Markers::clear`. -/
def Markers.clear (_ms : Markers) : Markers := []

/-- Modelled from the spec: a marker annotation line is a line starting
with `// @`; it binds the rest of the line as a marker name. -/
def markerTag : List Char := ['/', '/', ' ', '@']

def leadsWith : List Char → List Char → Bool
  | [], _ => true
  | _ :: _, [] => false
  | a :: as, b :: bs => a = b && leadsWith as bs

/-- Modelled from the spec: `markers::generate` — extract embedded marker
annotations from content.  Annotation lines are removed from the content
and each marker is bound to the row (in the cleaned content) of the line
that followed its annotation; returns `none` when no annotation is
present (`Document::new` and the `insert_offsets_marker` test fix this
behaviour: rows count only the kept lines). -/
def generateGo : List (List Char) → Nat → List (List Char) × List (String × Nat)
  | [], _ => ([], [])
  | l :: ls, row =>
    if leadsWith markerTag l then
      let (kept, ms) := generateGo ls row
      (kept, (String.mk (l.drop 4), row) :: ms)
    else
      let (kept, ms) := generateGo ls (row + 1)
      (l :: kept, ms)

def generate (content : List Char) : List Char × Option Markers :=
  let (kept, ms) := generateGo (linesOf content) 0
  ((kept.intersperse ['\n']).flatten, if ms.isEmpty then none else some ms)

-- -----------------------------------------------------------------------------
--   - Document (src/ui/document.rs) -
-- -----------------------------------------------------------------------------

/-- `Document`: the text buffer plus the marker index. -/
structure Document where
  markers : Markers
  text : List Char
deriving DecidableEq, Repr

namespace Document

/-- `Document::byte_offset(pos)`: byte offset of display position `pos`.
Walks whole (newline-inclusive) lines to the start of row `pos.y`, then
walks the characters of that row summing display widths until the
accumulated width reaches `pos.x`, returning the offset just past that
character (clamped to the end of the line).  Negative coordinates are
modelled by `Int.toNat` (the interpreter clamps the cursor at 0, so the
source never reaches this function with negative coordinates). -/
def byte_offset (text : List Char) (pos : Pos) : Nat :=
  let lineOffset := (((splitInclusive text).map strLen).take pos.y.toNat).sum
  let line := (dropBytes lineOffset text).takeWhile (fun c => c ≠ '\n')
  if pos.x = 0 then lineOffset
  else lineOffset + widthWalk pos.x line 0 0
where
  /-- the `for (i, c) in line.char_indices()` loop: `i` is the byte index
  walked so far, `x` the display width walked so far. -/
  widthWalk (posx : Int) : List Char → Nat → Nat → Nat
    | [], i, _ => i
    | c :: rest, i, x =>
      let x2 := x + charWidth c
      if posx ≤ (x2 : Int) then i + c.utf8Size
      else widthWalk posx rest (i + c.utf8Size) x2

/-- The loop of `Document::get_byte_offset`: starting from the text tail
at the span start, return the relative byte offset at which the span
ends — at a newline, or at the character where the remaining width
budget hits zero (that character excluded), or 0 if the text runs out
first (the source leaves `end = start` in that case). -/
def spanEnd : List Char → Nat → Nat → Nat
  | [], _, _ => 0
  | c :: rest, i, width =>
    if c = '\n' then i
    else
      let width2 := width - charWidth c
      if width2 = 0 then i
      else spanEnd rest (i + c.utf8Size) width2

/-- `Document::get_byte_offset(pos, width)`: the byte range
`start..start+len` covered by a width-`width` span at `pos`. -/
def get_byte_offset (text : List Char) (pos : Pos) (width : Nat) : Nat × Nat :=
  let start := byte_offset text pos
  (start, start + spanEnd (dropBytes start text) 0 width)

/-- `Document::insert_str(pos, s)`: splice `s` in at the byte offset of
`pos`; if `s` contains newlines, shift every marker at or after row
`pos.y` down by that many rows. -/
def insert_str (d : Document) (pos : Pos) (s : List Char) : Document :=
  let index := byte_offset d.text pos
  let text := takeBytes index d.text ++ s ++ dropBytes index d.text
  let newlines := nlCount s
  { markers := if 0 < newlines then d.markers.offsetAfter pos.y.toNat newlines else d.markers,
    text := text }

/-- One row of `Document::delete`: drain `get_byte_offset(pos, width)`
from the text. -/
def deleteRow (text : List Char) (pos : Pos) (width : Nat) : List Char :=
  let r := get_byte_offset text pos width
  takeBytes r.1 text ++ dropBytes r.2 text

/-- The row indices `from.y, from.y+1, .., to.y-1` walked by
`Document::delete`. -/
def rowRange (a b : Int) : List Int :=
  (List.range (b - a).toNat).map (fun (i : Nat) => a + (i : Int))

/-- `Document::delete(region)`: for each row of the region drain the
width-bounded span starting at column `region.from.x`; the width passed
to `get_byte_offset` is `1 + to.x - from.x` as in the source. -/
def delete (d : Document) (region : Region) : Document :=
  let width := (1 + region.rTo.x - region.rFrom.x).toNat
  { d with
    text := (rowRange region.rFrom.y region.rTo.y).foldl
      (fun text y => deleteRow text ⟨region.rFrom.x, y⟩ width) d.text }

/-- Rust `str::find`: byte offset of the first occurrence of `needle` in
`hay` (`some 0` for an empty needle). -/
def strFind (hay needle : List Char) : Option Nat :=
  if leadsWith needle hay then some 0
  else
    match hay with
    | [] => none
    | c :: rest => (strFind rest needle).map (fun off => off + c.utf8Size)

/-- The `while count > 1` loop of `Document::find`: step past the match
start and search again, `count - 1` more times. -/
def findLoop (line needle : List Char) : Nat → Nat → Option Nat
  | bytePos, 0 => some bytePos
  | bytePos, 1 => some bytePos
  | bytePos, count + 2 =>
    match strFind (dropBytes (bytePos + 1) line) needle with
    | none => none
    | some off => findLoop line needle (bytePos + 1 + off) (count + 1)

/-- The line slice `&text[cursor.x..end]` searched by `Document::find`:
the text from the start of the cursor's row, cut at the first newline,
with the first `cursor.x` bytes dropped (the source uses the display
column as a byte offset, which coincide for ASCII rows). -/
def findSlice (text : List Char) (cursor : Pos) : List Char :=
  let lineOffset := byte_offset text ⟨0, cursor.y⟩
  let t := dropBytes lineOffset text
  let endB := strLen (t.takeWhile (fun c => c ≠ '\n'))
  dropBytes cursor.x.toNat (takeBytes endB t)

/-- `Document::find(cursor, needle, count)`: display column of the
`count`-th occurrence of `needle` on the cursor's row at or after the
cursor column, or `none`. -/
def find (d : Document) (cursor : Pos) (needle : List Char) (count : Nat) : Option Nat :=
  let lineOffset := byte_offset d.text ⟨0, cursor.y⟩
  let t := dropBytes lineOffset d.text
  let offset := strWidth (takeBytes cursor.x.toNat t)
  let line := findSlice d.text cursor
  match strFind line needle with
  | none => none
  | some bp =>
    match findLoop line needle bp count with
    | none => none
    | some bytePos => some (strWidth (takeBytes bytePos line) + offset)

/-- `Document::clear`. -/
def clear (d : Document) : Document :=
  { d with markers := d.markers.clear, text := [] }

/-- `Document::add_markers`. -/
def add_markers (d : Document) (row : Nat) (ms : Markers) : Document :=
  { d with markers := d.markers.merge row ms }

/-- `Document::lookup_marker`. -/
def lookup_marker (d : Document) (key : String) : Option Nat :=
  d.markers.get key

end Document

-- -----------------------------------------------------------------------------
--   - Frame timer (src/ui/editor.rs, struct Timer) -
-- -----------------------------------------------------------------------------

/-- The playback `Timer`.  Rust `Duration`s are naturals; the
`rand: Random` process-local generator is modelled as an injected stream
of pre-drawn numbers (the spec's design note asks for exactly this
seedable-dependency treatment). -/
structure Timer where
  frame_time : Nat
  accumulator : Nat
  wait : Nat
  jitter : Nat
  jitter_ms : Nat
  rand : List Nat
deriving DecidableEq, Repr

namespace Timer

/-- `Timer::apply_jitter`: add the previously sampled jitter to the wait
pool, then draw the next jitter sample bounded by `jitter_ms`
(`rand.next(self.jitter_ms)` modelled as the stream head reduced into
`[0, jitter_ms]`). -/
def applyJitter (t : Timer) : Timer :=
  { t with
    wait := t.wait + t.jitter,
    jitter := t.rand.headD 0 % (t.jitter_ms + 1),
    rand := t.rand.tail }

/-- The `while self.accumulator >= self.frame_time` loop of
`Timer::tick`, with an explicit iteration bound: each pass removes
`frame_time ≥ 1` from the accumulator, so `acc` passes always suffice.
Returns the residual accumulator and the step count.  A zero
`frame_time` would never terminate in the source; it is guarded here
and yields zero steps. -/
def drainAccFuel (frameTime : Nat) : Nat → Nat → Nat × Nat
  | 0, acc => (acc, 0)
  | fuel + 1, acc =>
    if 0 < frameTime ∧ frameTime ≤ acc then
      let r := drainAccFuel frameTime fuel (acc - frameTime)
      (r.1, r.2 + 1)
    else (acc, 0)

def drainAcc (frameTime : Nat) (acc : Nat) : Nat × Nat :=
  drainAccFuel frameTime acc acc

/-- `Timer::tick(dt)`: absorb `dt` into an active wait (zero steps while
the wait holds), otherwise apply jitter, accumulate `dt` and drain the
accumulator into logical steps.  Mirrors the source exactly: in the
branch where the wait does not fully absorb `dt`, the source zeroes
`self.wait` *before* evaluating `dt -= self.wait`, so `dt` is reduced by
zero rather than by the expiring wait. -/
def tick (t : Timer) (dt : Nat) : Timer × Nat :=
  if t.wait ≠ 0 then
    if dt ≤ t.wait then
      ({ t with wait := t.wait - dt }, 0)
    else
      let t2 := { t with wait := 0 }
      let dt2 := dt - t2.wait
      let r := drainAcc t2.frame_time (t2.accumulator + dt2)
      ({ t2 with accumulator := r.1 }, r.2)
  else
    let t2 := applyJitter t
    let r := drainAcc t2.frame_time (t2.accumulator + dt)
    ({ t2 with accumulator := r.1 }, r.2)

/-- `Timer::wait(wait)` (named `startWait` here because `wait` is the
field's accessor). -/
def startWait (t : Timer) (wait : Nat) : Timer :=
  { t with wait := wait }

end Timer

-- -----------------------------------------------------------------------------
--   - Runtime instructions (src/ui/instructions.rs) -
-- -----------------------------------------------------------------------------

/-- `parser::Variable`: a typed render-facing value. -/
inductive Variable where
  | bool (b : Bool)
  | str (s : List Char)
  | int (i : Int)
deriving DecidableEq, Repr

/-- The runtime `Instruction` enum, one constructor per source variant. -/
inductive Instruction where
  | Jump (pos : Pos)
  | JumpToMarker (name : String)
  | Select (size : Size)
  | LoadTypeBuffer (content : List Char)
  | LoadCommandBuffer (content : List Char)
  | ClearCommandBuffer
  | ClearCommandWait
  | CommandClearTimeout (d : Nat)
  | Insert (content : List Char)
  | Delete
  | Wait (d : Nat)
  | Speed (d : Nat)
  | LinePause (d : Nat)
  | FindInCurrentLine (needle : List Char) (end_of_word : Bool) (count : Nat)
  | SetTitle (title : List Char)
  | SetExtension (ext : String)
  | SetJitter (j : Nat)
  | SetTheme (theme : String)
  | ShowLineNumbers (b : Bool)
  | AddMarkers (row : Nat) (markers : Markers)
  | LoadAudio (path : String)
  | Popup (msg : List Char)
  | ClosePopup
  | Clear
  | WriteBuffer (path : String)
  | SetVariable (name : String) (v : Variable)
deriving DecidableEq, Repr

-- -----------------------------------------------------------------------------
--   - Editor interpreter (src/ui/editor.rs) -
-- -----------------------------------------------------------------------------

/-- `RenderAction`. -/
inductive RenderAction where
  | Render
  | Skip
  | NextFrame
deriving DecidableEq, Repr

/-- Interpreter error messages, one constructor per `self.error(..)` call
site (the source formats these into strings; the payload here is the
dynamic part of each message). -/
inductive ErrMsg where
  | markerMissing (name : String)
  | writeConflict (path : String)
  | audioLoadFailed (path : String)
deriving DecidableEq, Repr

/-- The semantic fields of `DocState` (scroll/screen-cursor mirrors are
derived render output and carry no interpreter state). `error` is the
`Value<String>` error display, `none` standing for the empty string. -/
structure DocState where
  title : List Char
  error : Option ErrMsg
  show_line_numbers : Bool
  popup : List Char
  command_buffer : List Char
  show_cursor : Bool
  ctx : List (String × Variable)
deriving DecidableEq, Repr

/-- The external file system seen by `WriteBuffer`, as a path-to-content
association list. -/
abbrev Fs := List (String × List Char)

/-- The semantic fields of the `Editor` component.  The highlighter,
canvas buffer, scratch lines, audio shell and canvas size are external
render/audio collaborators with no bearing on the interpreter state; the
`type_buffer`/`type_command_buffer` `TextBuffer`s (missing from the
sources) are modelled from the spec as FIFO character queues. -/
structure EditorState where
  doc : Document
  cursor : Pos
  offset : Pos
  selected_range : Option Region
  instructions : List Instruction
  type_buffer : List Char
  type_command_buffer : List Char
  line_pause : Nat
  extension : String
  theme : String
  frame_timer : Timer
  command_clear_timeout : Nat
deriving DecidableEq, Repr

namespace EditorState

/-- `Editor::error`: clear the remaining instruction queue and surface
the message. -/
def error (e : EditorState) (s : DocState) (msg : ErrMsg) : EditorState × DocState :=
  ({ e with instructions := [] }, { s with error := some msg })

/-- Execute one already-popped runtime instruction (the body of the
`match instruction` in `Editor::apply`); `rest` is the queue after the
pop.  Returns the editor, doc state, file system and render action. -/
def applyInstruction (e : EditorState) (s : DocState) (fs : Fs) (inst : Instruction) :
    EditorState × DocState × Fs × RenderAction :=
  match inst with
  | .LoadCommandBuffer content =>
    ({ e with type_command_buffer := e.type_command_buffer ++ content },
      { s with show_cursor := false }, fs, .Render)
  | .LoadTypeBuffer content =>
    let (content, markers) := generate content
    let e := { e with type_buffer := e.type_buffer ++ content }
    match markers with
    | some markers =>
      ({ e with instructions := .AddMarkers e.cursor.y.toNat markers :: e.instructions },
        s, fs, .Render)
    | none => (e, s, fs, .Render)
  | .Insert content =>
    let (content, markers) := generate content
    let e := { e with cursor := ⟨0, e.cursor.y⟩ }
    let e := { e with doc := e.doc.insert_str e.cursor content }
    match markers with
    | some markers =>
      ({ e with instructions := .AddMarkers e.cursor.y.toNat markers :: e.instructions },
        s, fs, .Render)
    | none => (e, s, fs, .Render)
  | .AddMarkers row markers => ({ e with doc := e.doc.add_markers row markers }, s, fs, .Render)
  | .Jump pos =>
    let c := e.cursor.add pos
    ({ e with cursor := ⟨max c.x 0, max c.y 0⟩ }, s, fs, .Render)
  | .JumpToMarker name =>
    match e.doc.lookup_marker name with
    | none =>
      let (e, s) := e.error s (.markerMissing name)
      (e, s, fs, .Render)
    | some row => ({ e with cursor := ⟨0, (row : Int)⟩ }, s, fs, .Render)
  | .Select size =>
    if size = Size.zero then (e, s, fs, .Render)
    else
      let region := Region.ofPosSize e.cursor size
      ({ e with cursor := ⟨region.rTo.x - 1, region.rTo.y - 1⟩, selected_range := some region },
        s, fs, .Render)
  | .Delete =>
    match e.selected_range with
    | some range =>
      ({ e with cursor := range.rFrom, doc := e.doc.delete range, selected_range := none },
        s, fs, .Render)
    | none =>
      ({ e with doc := e.doc.delete (Region.ofPosSize e.cursor ⟨1, 1⟩) }, s, fs, .Render)
  | .Wait dur => ({ e with frame_timer := e.frame_timer.startWait dur }, s, fs, .NextFrame)
  | .Speed dur => ({ e with frame_timer := { e.frame_timer with frame_time := dur } }, s, fs, .Render)
  | .FindInCurrentLine needle end_of_word count =>
    if needle = [] then (e, s, fs, .Render)
    else
      match e.doc.find e.cursor needle count with
      | none => (e, s, fs, .Render)
      | some x =>
        let cx : Int := (x : Int)
        let cx := if end_of_word then cx + (strWidth needle : Int) - 1 else cx
        ({ e with cursor := ⟨cx, e.cursor.y⟩ }, s, fs, .Render)
  | .LinePause duration => ({ e with line_pause := duration }, s, fs, .Render)
  | .SetTitle title => (e, { s with title := title }, fs, .Render)
  | .SetJitter jitter =>
    ({ e with frame_timer := { e.frame_timer with jitter_ms := jitter } }, s, fs, .Render)
  | .ShowLineNumbers b => (e, { s with show_line_numbers := b }, fs, .Render)
  | .Clear =>
    ({ e with doc := e.doc.clear, offset := ⟨0, 0⟩, cursor := ⟨0, 0⟩ }, s, fs, .Render)
  | .SetExtension ext => ({ e with extension := ext }, s, fs, .Render)
  | .SetTheme theme => ({ e with theme := theme }, s, fs, .Render)
  | .LoadAudio _path =>
    -- the audio shell is an external collaborator; its `load` is
    -- modelled as succeeding (its failure path calls `self.error`)
    (e, s, fs, .Render)
  | .Popup message => (e, { s with popup := message }, fs, .Render)
  | .ClosePopup => (e, { s with popup := [] }, fs, .Render)
  | .WriteBuffer path =>
    if (fs.lookup path).isSome then
      let (e, s) := e.error s (.writeConflict path)
      (e, s, fs, .Render)
    else
      -- `File::create` + `write_all`, modelled as succeeding (their
      -- failure paths are external I/O errors that also call `self.error`)
      (e, s, (path, e.doc.text) :: fs, .Render)
  | .ClearCommandBuffer => (e, { s with command_buffer := [], show_cursor := true }, fs, .Render)
  | .CommandClearTimeout duration => ({ e with command_clear_timeout := duration }, s, fs, .Render)
  | .ClearCommandWait =>
    ({ e with instructions := .Wait e.command_clear_timeout :: e.instructions }, s, fs, .Render)
  | .SetVariable name v => (e, { s with ctx := (name, v) :: s.ctx }, fs, .Render)

/-- `Editor::apply`: one logical step.  Drain the command type buffer
first, then the document type buffer, then pop and execute the next
runtime instruction (or skip when the queue is empty). -/
def apply (e : EditorState) (s : DocState) (fs : Fs) :
    EditorState × DocState × Fs × RenderAction :=
  match e.type_command_buffer with
  | c :: rest =>
    ({ e with type_command_buffer := rest },
      { s with command_buffer := s.command_buffer ++ [c] }, fs, .Render)
  | [] =>
  match e.type_buffer with
  | c :: rest =>
    let e := { e with type_buffer := rest, doc := e.doc.insert_str e.cursor [c] }
    if c = '\n' then
      let e := { e with cursor := ⟨0, e.cursor.y + 1⟩ }
      if 0 < e.line_pause then
        ({ e with frame_timer := e.frame_timer.startWait e.line_pause }, s, fs, .NextFrame)
      else (e, s, fs, .Render)
    else
      ({ e with cursor := ⟨e.cursor.x + (charWidth c : Int), e.cursor.y⟩ }, s, fs, .Render)
  | [] =>
  match e.instructions with
  | [] => (e, s, fs, .Skip)
  | inst :: rest => applyInstruction { e with instructions := rest } s fs inst

end EditorState

-- -----------------------------------------------------------------------------
--   - Compiler (src/ui/compile.rs) -
-- -----------------------------------------------------------------------------

/-- `parser::Source`: a literal string or a named-variable reference. -/
inductive Source where
  | str (content : List Char)
  | ident (key : String)
deriving DecidableEq, Repr

/-- `parser::Dest`: a relative displacement or a named marker. -/
inductive Dest where
  | relative (row col : Int)
  | marker (name : String)
deriving DecidableEq, Repr

/-- The parser-level (source) instruction set, with exactly the variants
and payloads consumed by `compile` in `src/ui/compile.rs`. -/
inductive PInstruction where
  | Load (path : String) (key : String)
  | Find (needle : List Char) (count : Nat)
  | FindEnd (needle : List Char) (count : Nat)
  | Goto (dest : Dest)
  | Select (width height : Nat)
  | Delete
  | Type (source : Source) (trim_trailing_newline prefix_newline : Bool)
  | Command (source : Source)
  | Insert (source : Source)
  | Replace (src : List Char) (replacement : Source)
  | Wait (seconds : Nat)
  | Speed (instructions_per_second : Nat)
  | LinePause (millis : Nat)
  | SetTitle (title : List Char)
  | SetExtension (ext : String)
  | ShowLineNumbers (b : Bool)
  | Jitter (j : Nat)
  | SetTheme (theme : String)
  | LoadAudio (path : String)
  | Clear
  | Popup (msg : Source)
  | ClosePopup
  | WriteBuffer (path : String)
  | CommandClearTimeout (timeout : Nat)
deriving DecidableEq, Repr

/-- Compile errors (`ui::error::Error` as used by `compile`). -/
inductive CompileError where
  | importError (path : String)
  | unresolved (key : String)
deriving DecidableEq, Repr

/-- Modelled from the spec: the compiler `Context` of `src/ui/context.rs`
(missing from the sources) — a name-to-string mapping with `set` and a
fallible `load` that errors on an unbound identifier. -/
abbrev Context := List (String × List Char)

def Context.set (ctx : Context) (key : String) (content : List Char) : Context :=
  (key, content) :: ctx

def Context.load (ctx : Context) (key : String) : Except CompileError (List Char) :=
  match ctx.lookup key with
  | some content => .ok content
  | none => .error (.unresolved key)

/-- Resolve a `Source` against the context (the repeated
`match source { Str => .., Ident => context.load(..)? }` in `compile`). -/
def resolveSource (ctx : Context) : Source → Except CompileError (List Char)
  | .str content => .ok content
  | .ident key => ctx.load key

/-- Duration conversions used by `compile` (Rust `Duration::from_secs`
and friends); the embedding measures durations in microseconds, the
finest unit the compiler produces. -/
def microsPerSec : Nat := 1000000

/-- One iteration of the `for inst in parsed_instructions` loop of
`compile`: the (possibly updated) context and the runtime instructions
this source instruction lowers to.  `readFile` is the external file
system `Load` reads through. -/
def compileOne (readFile : String → Option (List Char)) (ctx : Context) :
    PInstruction → Except CompileError (Context × List Instruction)
  | .Load path key =>
    match readFile path with
    | none => .error (.importError path)
    | some content => .ok (ctx.set key content, [])
  | .Find needle count => .ok (ctx, [.FindInCurrentLine needle false count])
  | .FindEnd needle count => .ok (ctx, [.FindInCurrentLine needle true count])
  | .Goto (.relative row col) => .ok (ctx, [.Jump ⟨col, row⟩])
  | .Goto (.marker name) => .ok (ctx, [.JumpToMarker name])
  | .Select width height => .ok (ctx, [.Select ⟨width, height⟩])
  | .Delete => .ok (ctx, [.Delete])
  | .Type source trim_trailing_newline prefix_newline => do
    let content ← resolveSource ctx source
    let content :=
      if trim_trailing_newline && (content.getLast? == some '\n')
      then content.dropLast else content
    let pre : List Instruction := if prefix_newline then [.Insert ['\n']] else []
    .ok (ctx, pre ++ [.LoadTypeBuffer content])
  | .Command source => do
    let cmd ← resolveSource ctx source
    .ok (ctx, [.LoadCommandBuffer cmd, .ClearCommandWait, .ClearCommandBuffer])
  | .Insert source => do
    let content ← resolveSource ctx source
    .ok (ctx, [.Insert content])
  | .Replace src replacement => do
    let width := strWidth src
    let content ← resolveSource ctx replacement
    .ok (ctx, [.FindInCurrentLine src false 1, .Select ⟨width, 1⟩, .Delete,
               .LoadTypeBuffer content])
  | .Wait seconds => .ok (ctx, [.Wait (seconds * microsPerSec)])
  | .Speed ips => .ok (ctx, [.Speed (microsPerSec / ips)])
  | .LinePause millis => .ok (ctx, [.LinePause (millis * 1000)])
  | .SetTitle title => .ok (ctx, [.SetTitle title])
  | .SetExtension ext => .ok (ctx, [.SetExtension ext])
  | .ShowLineNumbers b => .ok (ctx, [.ShowLineNumbers b])
  | .Jitter j => .ok (ctx, [.SetJitter j])
  | .SetTheme theme => .ok (ctx, [.SetTheme theme])
  | .LoadAudio path => .ok (ctx, [.LoadAudio path])
  | .Clear => .ok (ctx, [.Clear])
  | .Popup msg => do
    let msg ← resolveSource ctx msg
    .ok (ctx, [.Popup msg])
  | .ClosePopup => .ok (ctx, [.ClosePopup])
  | .WriteBuffer path => .ok (ctx, [.WriteBuffer path])
  | .CommandClearTimeout timeout => .ok (ctx, [.CommandClearTimeout (timeout * 1000)])

/-- `compile` over a source instruction list, threading the context and
concatenating the lowered runtime instructions. -/
def compileList (readFile : String → Option (List Char)) (ctx : Context) :
    List PInstruction → Except CompileError (Context × List Instruction)
  | [] => .ok (ctx, [])
  | p :: ps => do
    let (ctx1, is1) ← compileOne readFile ctx p
    let (ctx2, is2) ← compileList readFile ctx1 ps
    .ok (ctx2, is1 ++ is2)

/-- `compile(parsed_instructions)`: start from the empty context, return
only the flat runtime instruction stream. -/
def compile (readFile : String → Option (List Char)) (ps : List PInstruction) :
    Except CompileError (List Instruction) :=
  (compileList readFile [] ps).map Prod.snd

-- -----------------------------------------------------------------------------
--   - Derived notions used by the claim statements -
-- -----------------------------------------------------------------------------

/-- The first `y` newline-inclusive lines of a string (character-level
recursion equivalent of taking `y` elements of `split_inclusive('\n')`
and flattening). -/
def takeLines : Nat → List Char → List Char
  | 0, _ => []
  | _ + 1, [] => []
  | y + 1, c :: cs => if c = '\n' then c :: takeLines y cs else c :: takeLines (y + 1) cs

/-- Everything after the first `y` newline-inclusive lines of a string. -/
def dropLines : Nat → List Char → List Char
  | 0, cs => cs
  | _ + 1, [] => []
  | y + 1, c :: cs => if c = '\n' then dropLines y cs else dropLines (y + 1) cs

/-- The characters of row `y` (newline excluded). -/
def lineAt (text : List Char) (y : Nat) : List Char :=
  (dropLines y text).takeWhile (fun c => c ≠ '\n')

/-- Re-derive the row of a byte offset, as the spec's round-trip
property words it: count the newline characters up to the offset. -/
def rowOfOffset (text : List Char) (off : Nat) : Nat :=
  nlCount (takeBytes off text)

/-- Re-derive the display column of a byte offset: sum the character
display widths from the last newline before the offset up to the
offset. -/
def colOfOffset (text : List Char) (off : Nat) : Nat :=
  strWidth ((takeBytes off text).reverse.takeWhile (fun c => c ≠ '\n'))

/-- `needle` occurs as a contiguous substring of `hay`. -/
def occursIn (needle hay : List Char) : Prop :=
  ∃ p q, hay = p ++ needle ++ q

-- -----------------------------------------------------------------------------
--   - Concrete fixtures for counterexamples and witnesses -
-- -----------------------------------------------------------------------------

/-- `Editor::new(instructions, _, frame_time)`: the initial interpreter
state (empty document, origin cursor, no selection, empty type buffers,
extension "txt", theme "togglebit", 1s command-clear timeout; durations
in microseconds). -/
def EditorState.new (instructions : List Instruction) (frame_time : Nat) : EditorState :=
  { doc := ⟨[], []⟩, cursor := ⟨0, 0⟩, offset := ⟨0, 0⟩, selected_range := none,
    instructions := instructions, type_buffer := [], type_command_buffer := [],
    line_pause := 0, extension := "txt", theme := "togglebit",
    frame_timer := ⟨frame_time, 0, 0, 0, 20, []⟩, command_clear_timeout := microsPerSec }

/-- The default `DocState`. -/
def docState0 : DocState :=
  { title := [], error := none, show_line_numbers := false, popup := [],
    command_buffer := [], show_cursor := true, ctx := [] }

/-- A two-character document "ab" with a `Select`-zero-then-`Delete`
script, cursor on the 'a'. -/
def c1Editor : EditorState :=
  { EditorState.new [.Select ⟨0, 0⟩, .Delete] 1 with doc := ⟨[], ['a', 'b']⟩ }

/-- A one-line document whose first character is double-width. -/
def c3Text : List Char := ['漢', 'x']

/-- The 5-line document of the spec's `delete(region)` example. -/
def c5Doc : Document := ⟨[], "abcdefg\n1234567\nabcdefg\n1234567\nabcdefg".toList⟩

/-- The 2-wide-by-3-tall region at column 1, row 1 of that example. -/
def c5Region : Region := Region.ofPosSize ⟨1, 1⟩ ⟨2, 3⟩

/-- The spec's expected result for the example. -/
def c5Expected : List Char := "abcdefg\n14567\nadefg\n14567\nabcdefg".toList

/-- Document and markers for the marker-shift example of the spec
(markers `zero`, `one`, `two` on rows 0, 1, 2 of a 3-line text). -/
def c4Doc : Document := ⟨[("zero", 0), ("one", 1), ("two", 2)], "hello\nworld\n!".toList⟩

/-- Four newlines, inserted at row 1 in the marker-shift example. -/
def c4Ins : List Char := ['\n', '\n', '\n', '\n']

/-- An editor about to execute a `FindInCurrentLine` with no match:
document "abc", needle "zz". -/
def c6Editor : EditorState :=
  { EditorState.new [.FindInCurrentLine ['z', 'z'] false 1, .Delete] 1 with
    doc := ⟨[], ['a', 'b', 'c']⟩ }

/-- An editor about to execute a `WriteBuffer` to an already existing
path. -/
def c8Editor : EditorState :=
  { EditorState.new [.WriteBuffer "out.txt", .Delete] 1 with doc := ⟨[], ['h', 'i']⟩ }

/-- A file system on which "out.txt" already exists. -/
def c8Fs : Fs := [("out.txt", ['x'])]

/-- An editor with characters still queued in both type buffers. -/
def c9Editor : EditorState :=
  { EditorState.new [.Delete] 1 with
    doc := ⟨[], ['d']⟩, type_command_buffer := ['l', 's'], type_buffer := ['h', 'i'] }

/-- An editor with the cursor away from the origin, about to execute a
non-zero `Select`. -/
def c10Editor : EditorState :=
  { EditorState.new [.Select ⟨3, 2⟩] 1 with
    doc := ⟨[], "abcdef\nabcdef\nabcdef\nabcdef".toList⟩, cursor := ⟨2, 1⟩,
    selected_range := some (Region.ofPosSize ⟨0, 0⟩ ⟨1, 1⟩) }

-- -----------------------------------------------------------------------------
--   - Byte-slicing lemmas -
-- -----------------------------------------------------------------------------

theorem strLen_cons (c : Char) (a : List Char) : strLen (c :: a) = c.utf8Size + strLen a := by
  simp [strLen]

theorem strLen_append (a b : List Char) : strLen (a ++ b) = strLen a + strLen b := by
  simp [strLen]

theorem strWidth_cons (c : Char) (a : List Char) : strWidth (c :: a) = charWidth c + strWidth a := by
  simp [strWidth]

theorem strWidth_append (a b : List Char) : strWidth (a ++ b) = strWidth a + strWidth b := by
  simp [strWidth]

theorem strWidth_reverse (a : List Char) : strWidth a.reverse = strWidth a := by
  simp [strWidth, List.sum_reverse]

theorem takeBytes_zero (l : List Char) : takeBytes 0 l = [] := by
  cases l <;> simp [takeBytes]

theorem dropBytes_zero (l : List Char) : dropBytes 0 l = l := by
  cases l <;> simp [dropBytes]

theorem takeBytes_addStrLen (a b : List Char) (n : Nat) :
    takeBytes (strLen a + n) (a ++ b) = a ++ takeBytes n b := by
  induction a with
  | nil => simp [strLen]
  | cons c a ih =>
    have hpos := Char.utf8Size_pos c
    have h1 : strLen (c :: a) + n = c.utf8Size + (strLen a + n) := by rw [strLen_cons]; omega
    have h2 : ¬ (c.utf8Size + (strLen a + n) = 0) := by omega
    have h3 : c.utf8Size + (strLen a + n) - c.utf8Size = strLen a + n := by omega
    rw [h1, List.cons_append]
    simp only [takeBytes, if_neg h2, h3, ih, List.cons_append]

theorem dropBytes_addStrLen (a b : List Char) (n : Nat) :
    dropBytes (strLen a + n) (a ++ b) = dropBytes n b := by
  induction a with
  | nil => simp [strLen]
  | cons c a ih =>
    have hpos := Char.utf8Size_pos c
    have h1 : strLen (c :: a) + n = c.utf8Size + (strLen a + n) := by rw [strLen_cons]; omega
    have h2 : ¬ (c.utf8Size + (strLen a + n) = 0) := by omega
    have h3 : c.utf8Size + (strLen a + n) - c.utf8Size = strLen a + n := by omega
    rw [h1, List.cons_append]
    simp only [dropBytes, if_neg h2, h3, ih]

theorem takeBytes_strLen (a b : List Char) : takeBytes (strLen a) (a ++ b) = a := by
  have h := takeBytes_addStrLen a b 0
  simpa [takeBytes_zero] using h

theorem dropBytes_strLen (a b : List Char) : dropBytes (strLen a) (a ++ b) = b := by
  have h := dropBytes_addStrLen a b 0
  simpa [dropBytes_zero] using h

theorem takeBytes_append_dropBytes (n : Nat) (l : List Char) :
    takeBytes n l ++ dropBytes n l = l := by
  induction l generalizing n with
  | nil => simp [takeBytes, dropBytes]
  | cons c rest ih =>
    by_cases h : n = 0
    · simp [h, takeBytes, dropBytes]
    · simp only [takeBytes, dropBytes, if_neg h, List.cons_append]
      rw [ih]

theorem mem_dropBytes {x : Char} {n : Nat} {l : List Char} (h : x ∈ dropBytes n l) : x ∈ l := by
  induction l generalizing n with
  | nil => simpa [dropBytes] using h
  | cons c rest ih =>
    by_cases h0 : n = 0
    · simpa [h0, dropBytes] using h
    · simp only [dropBytes, if_neg h0] at h
      exact List.mem_cons_of_mem _ (ih h)

theorem mem_takeBytes {x : Char} {n : Nat} {l : List Char} (h : x ∈ takeBytes n l) : x ∈ l := by
  induction l generalizing n with
  | nil => simpa [takeBytes] using h
  | cons c rest ih =>
    by_cases h0 : n = 0
    · simp [h0, takeBytes] at h
    · simp only [takeBytes, if_neg h0, List.mem_cons] at h
      rcases h with h | h
      · exact h ▸ List.mem_cons_self _ _
      · exact List.mem_cons_of_mem _ (ih h)

-- -----------------------------------------------------------------------------
--   - C2: Timer::tick with an active wait -
-- -----------------------------------------------------------------------------

/-- C2: evidence of the divergence.  With a 5-unit wait active and a
1-unit frame time, a tick of 8 units produces 8 logical steps — the
source zeroes `self.wait` before evaluating `dt -= self.wait`, so the
full `dt` (not `dt - wait = 3`) is added to the accumulator.  The
fully-absorbed branch behaves as claimed: a 3-unit tick against the
5-unit wait produces zero steps and keeps the 2-unit remainder. -/
theorem C2_tick_full_dt_accumulated :
    Timer.tick ⟨1, 0, 5, 0, 20, []⟩ 8 = (⟨1, 0, 0, 0, 20, []⟩, 8) ∧
    (Timer.tick ⟨1, 0, 5, 0, 20, []⟩ 8).2 ≠ 3 ∧
    Timer.tick ⟨1, 0, 5, 0, 20, []⟩ 3 = (⟨1, 0, 2, 0, 20, []⟩, 0) := by
  decide

-- -----------------------------------------------------------------------------
--   - C1: Select of zero size, then Delete -
-- -----------------------------------------------------------------------------

/-- C1 (counterexample): an editor on the document "ab", cursor on the
'a', no pre-existing selection, executing `Select` of zero size and then
`Delete`.  Contrary to the claim, the `Delete` removes the character
under the cursor: the document becomes "b". -/
theorem C1_counterexample :
    c1Editor.selected_range = none ∧
    c1Editor.doc.text = ['a', 'b'] ∧
    (EditorState.apply (EditorState.apply c1Editor docState0 []).1
        (EditorState.apply c1Editor docState0 []).2.1 []).1.doc.text = ['b'] := by
  decide

/-- C1 (amended): a zero-size `Select` is a no-op that creates no
selection — it is not distinct from "no selection" — so the subsequent
`Delete`, finding no selection, removes the single 1-by-1 cell under
the cursor. -/
theorem C1_select_zero_then_delete (e : EditorState) (s : DocState) (fs : Fs)
    (rest : List Instruction)
    (hcb : e.type_command_buffer = []) (htb : e.type_buffer = [])
    (hsel : e.selected_range = none)
    (hins : e.instructions = .Select ⟨0, 0⟩ :: .Delete :: rest) :
    EditorState.apply e s fs = ({ e with instructions := .Delete :: rest }, s, fs, .Render) ∧
    EditorState.apply { e with instructions := .Delete :: rest } s fs =
      ({ e with
          instructions := rest,
          doc := e.doc.delete (Region.ofPosSize e.cursor ⟨1, 1⟩) }, s, fs, .Render) := by
  obtain ⟨doc, cursor, offset, sel, ins, tb, tcb, lp, ext, th, ft, cct⟩ := e
  simp only at hcb htb hsel hins
  subst hcb htb hsel hins
  constructor
  · simp [EditorState.apply, EditorState.applyInstruction, Size.zero]
  · simp [EditorState.apply, EditorState.applyInstruction]

/-- C1 (witness for the amended theorem), on the concrete "ab" editor. -/
theorem C1_amended_witness :
    EditorState.apply c1Editor docState0 [] =
      ({ c1Editor with instructions := [.Delete] }, docState0, [], .Render) ∧
    EditorState.apply { c1Editor with instructions := [.Delete] } docState0 [] =
      ({ c1Editor with
          instructions := [],
          doc := c1Editor.doc.delete (Region.ofPosSize c1Editor.cursor ⟨1, 1⟩) },
        docState0, [], .Render) :=
  C1_select_zero_then_delete c1Editor docState0 [] [] rfl rfl rfl rfl

-- -----------------------------------------------------------------------------
--   - C10: non-zero Select -
-- -----------------------------------------------------------------------------

/-- C10: a non-zero `Select` at cursor `C` makes the selection the
rectangle anchored at `C` of the given size (silently replacing any
previous selection — no hypothesis restricts `e.selected_range`), and
moves the cursor to the region's exclusive corner minus (1,1). -/
theorem C10_select_sets_selection (e : EditorState) (s : DocState) (fs : Fs)
    (size : Size) (rest : List Instruction)
    (hcb : e.type_command_buffer = []) (htb : e.type_buffer = [])
    (hins : e.instructions = .Select size :: rest) (hsz : size ≠ Size.zero) :
    EditorState.apply e s fs =
      ({ e with
          instructions := rest,
          cursor := ⟨e.cursor.x + (size.width : Int) - 1,
                     e.cursor.y + (size.height : Int) - 1⟩,
          selected_range := some (Region.ofPosSize e.cursor size) }, s, fs, .Render) := by
  obtain ⟨doc, cursor, offset, sel, ins, tb, tcb, lp, ext, th, ft, cct⟩ := e
  simp only at hcb htb hins
  subst hcb htb hins
  simp [EditorState.apply, EditorState.applyInstruction, Region.ofPosSize, hsz]

/-- C10 (witness): selecting 3-by-2 at cursor (2,1) anchors the region
at (2,1) (replacing the previous 1-by-1 selection) and puts the cursor
at (4,2). -/
theorem C10_witness :
    (EditorState.apply c10Editor docState0 []).1.selected_range
        = some (Region.ofPosSize ⟨2, 1⟩ ⟨3, 2⟩) ∧
    (EditorState.apply c10Editor docState0 []).1.cursor = ⟨4, 2⟩ := by
  have h := C10_select_sets_selection c10Editor docState0 [] ⟨3, 2⟩ [] rfl rfl rfl (by decide)
  rw [h]
  constructor
  · rfl
  · show (⟨(2 : Int) + (3 : Nat) - 1, (1 : Int) + (2 : Nat) - 1⟩ : Pos) = ⟨4, 2⟩
    decide

-- -----------------------------------------------------------------------------
--   - C8: WriteBuffer to an existing path -
-- -----------------------------------------------------------------------------

/-- C8: executing `WriteBuffer(path)` when `path` already exists on the
file system reports the write-conflict error, clears the remaining
instruction queue, and leaves the file system (hence the file's
contents) unchanged. -/
theorem C8_write_conflict (e : EditorState) (s : DocState) (fs : Fs) (path : String)
    (rest : List Instruction)
    (hcb : e.type_command_buffer = []) (htb : e.type_buffer = [])
    (hins : e.instructions = .WriteBuffer path :: rest)
    (hex : (fs.lookup path).isSome = true) :
    EditorState.apply e s fs =
      ({ e with instructions := [] },
        { s with error := some (.writeConflict path) }, fs, .Render) := by
  obtain ⟨doc, cursor, offset, sel, ins, tb, tcb, lp, ext, th, ft, cct⟩ := e
  simp only at hcb htb hins
  subst hcb htb hins
  simp [EditorState.apply, EditorState.applyInstruction, EditorState.error, hex]

/-- C8 (witness): on the concrete editor and a file system where
"out.txt" exists. -/
theorem C8_witness :
    EditorState.apply c8Editor docState0 c8Fs =
      ({ c8Editor with instructions := [] },
        { docState0 with error := some (.writeConflict "out.txt") }, c8Fs, .Render) :=
  C8_write_conflict c8Editor docState0 c8Fs "out.txt" [.Delete] rfl rfl rfl (by decide)

-- -----------------------------------------------------------------------------
--   - C9: error clears only the instruction queue -
-- -----------------------------------------------------------------------------

/-- C9: `Editor::error` clears only the pending runtime-instruction
queue — both type buffers survive — and subsequent logical steps still
emit the queued characters: after an error, a pending command-buffer
character is still emitted into the command overlay, and (with the
command lane empty) a pending type-buffer character is still inserted
into the document. -/
theorem C9_error_keeps_type_buffers :
    (∀ (e : EditorState) (s : DocState) (m : ErrMsg),
      (EditorState.error e s m).1.type_buffer = e.type_buffer ∧
      (EditorState.error e s m).1.type_command_buffer = e.type_command_buffer ∧
      (EditorState.error e s m).1.instructions = [] ∧
      (EditorState.error e s m).2.error = some m) ∧
    (∀ (e : EditorState) (s : DocState) (fs : Fs) (m : ErrMsg) (c : Char) (cs : List Char),
      e.type_command_buffer = c :: cs →
      EditorState.apply (EditorState.error e s m).1 (EditorState.error e s m).2 fs =
        ({ (EditorState.error e s m).1 with type_command_buffer := cs },
          { (EditorState.error e s m).2 with
              command_buffer := s.command_buffer ++ [c] }, fs, .Render)) ∧
    (∀ (e : EditorState) (s : DocState) (fs : Fs) (m : ErrMsg) (c : Char) (cs : List Char),
      e.type_command_buffer = [] → e.type_buffer = c :: cs → c ≠ '\n' →
      EditorState.apply (EditorState.error e s m).1 (EditorState.error e s m).2 fs =
        ({ (EditorState.error e s m).1 with
              type_buffer := cs,
              doc := e.doc.insert_str e.cursor [c],
              cursor := ⟨e.cursor.x + (charWidth c : Int), e.cursor.y⟩ },
          (EditorState.error e s m).2, fs, .Render)) := by
  refine ⟨fun e s m => ⟨rfl, rfl, rfl, rfl⟩, ?_, ?_⟩
  · intro e s fs m c cs hcb
    obtain ⟨doc, cursor, offset, sel, ins, tb, tcb, lp, ext, th, ft, cct⟩ := e
    simp only at hcb
    subst hcb
    simp [EditorState.apply, EditorState.error]
  · intro e s fs m c cs hcb htb hc
    obtain ⟨doc, cursor, offset, sel, ins, tb, tcb, lp, ext, th, ft, cct⟩ := e
    simp only at hcb htb
    subst hcb htb
    simp [EditorState.apply, EditorState.error, hc]

/-- C9 (witness): after an error on the concrete editor with "ls" queued
in the command lane and "hi" queued in the type lane, the next step
still emits 'l' into the command overlay. -/
theorem C9_witness :
    EditorState.apply (EditorState.error c9Editor docState0 (.markerMissing "m")).1
        (EditorState.error c9Editor docState0 (.markerMissing "m")).2 [] =
      ({ (EditorState.error c9Editor docState0 (.markerMissing "m")).1 with
            type_command_buffer := ['s'] },
        { (EditorState.error c9Editor docState0 (.markerMissing "m")).2 with
            command_buffer := docState0.command_buffer ++ ['l'] }, [], .Render) :=
  C9_error_keeps_type_buffers.2.1 c9Editor docState0 [] (.markerMissing "m") 'l' ['s'] rfl

-- -----------------------------------------------------------------------------
--   - C7: Replace is a macro for find / select / delete / type -
-- -----------------------------------------------------------------------------

/-- C7: compiling `Replace(needle, replacement)` produces, in order,
exactly the runtime instructions of the manual sequence `find(needle)`,
`select(display width of needle, 1)`, `delete`, `type(replacement)`
(type with no trailing-newline trimming and no newline prefix), in any
context and whatever instructions follow — so replaying the compiled
`Replace` is the same as replaying that manual sequence. -/
theorem C7_replace_is_find_select_delete_type
    (readFile : String → Option (List Char)) (ctx : Context)
    (src : List Char) (replacement : Source) (rest : List PInstruction) :
    compileList readFile ctx (.Replace src replacement :: rest) =
      compileList readFile ctx
        (.Find src 1 :: .Select (strWidth src) 1 :: .Delete ::
         .Type replacement false false :: rest) := by
  cases hr : resolveSource ctx replacement with
  | error err => simp [compileList, compileOne, hr, Except.bind, bind]
  | ok content =>
    cases hrest : compileList readFile ctx rest with
    | error err => simp [compileList, compileOne, hr, hrest, bind, Except.bind]
    | ok p => simp [compileList, compileOne, hr, hrest, bind, Except.bind]

-- -----------------------------------------------------------------------------
--   - C4: insertions shift markers by their newline count -
-- -----------------------------------------------------------------------------

theorem nlCount_append (a b : List Char) : nlCount (a ++ b) = nlCount a + nlCount b := by
  simp [nlCount, List.filter_append]

theorem nlCount_splice (text s : List Char) (i : Nat) :
    nlCount (takeBytes i text ++ s ++ dropBytes i text) = nlCount text + nlCount s := by
  rw [nlCount_append, nlCount_append]
  have h2 : nlCount (takeBytes i text) + nlCount (dropBytes i text) = nlCount text := by
    rw [← nlCount_append, takeBytes_append_dropBytes]
  omega

/-- C4: inserting a string with `k ≥ 1` newlines at row `R = pos.y`
rewrites the marker table pointwise — every marker with row ≥ R moves
down by exactly `k`, every marker with row < R is untouched — the text
gains exactly `k` rows, and marker rows that were valid (≤ number of
newlines) stay valid. -/
theorem C4_insert_shifts_markers (d : Document) (pos : Pos) (s : List Char) (k : Nat)
    (hk : nlCount s = k) (hk1 : 1 ≤ k) :
    (d.insert_str pos s).markers
        = d.markers.map (fun m => if pos.y.toNat ≤ m.2 then (m.1, m.2 + k) else m) ∧
    nlCount (d.insert_str pos s).text = nlCount d.text + k ∧
    ((∀ m ∈ d.markers, m.2 ≤ nlCount d.text) →
      ∀ m ∈ (d.insert_str pos s).markers, m.2 ≤ nlCount (d.insert_str pos s).text) := by
  subst hk
  have hpos : 0 < nlCount s := hk1
  have hmk : (d.insert_str pos s).markers
      = d.markers.map (fun m => if pos.y.toNat ≤ m.2 then (m.1, m.2 + nlCount s) else m) := by
    simp [Document.insert_str, Markers.offsetAfter, hpos]
  have htext : nlCount (d.insert_str pos s).text = nlCount d.text + nlCount s := by
    simp only [Document.insert_str]
    exact nlCount_splice d.text s (Document.byte_offset d.text pos)
  refine ⟨hmk, htext, ?_⟩
  intro hvalid m hm
  rw [hmk] at hm
  rw [htext]
  obtain ⟨m0, hm0, rfl⟩ := List.mem_map.mp hm
  have hb := hvalid m0 hm0
  by_cases hc : pos.y.toNat ≤ m0.2 <;> simp [hc] <;> omega

/-- C4 (witness): the spec's example — markers `zero`/`one`/`two` on
rows 0/1/2; inserting four newlines at row 1 moves them to 0/5/6, and
the 3-row text becomes a 7-row text. -/
theorem C4_witness :
    (c4Doc.insert_str ⟨0, 1⟩ c4Ins).markers = [("zero", 0), ("one", 5), ("two", 6)] ∧
    nlCount (c4Doc.insert_str ⟨0, 1⟩ c4Ins).text = 6 := by
  have h := C4_insert_shifts_markers c4Doc ⟨0, 1⟩ c4Ins 4 (by decide) (by decide)
  constructor
  · rw [h.1]; decide
  · rw [h.2.1]; decide

-- -----------------------------------------------------------------------------
--   - C6: find is line-local and a miss is a silent no-op -
-- -----------------------------------------------------------------------------

theorem leadsWith_append (a b : List Char) : leadsWith a (a ++ b) = true := by
  induction a with
  | nil => simp [leadsWith]
  | cons c a ih => simp [leadsWith, ih]

theorem leadsWith_eq {needle hay : List Char} (h : leadsWith needle hay = true) :
    ∃ q, hay = needle ++ q := by
  induction needle generalizing hay with
  | nil => exact ⟨hay, rfl⟩
  | cons n ns ih =>
    cases hay with
    | nil => simp [leadsWith] at h
    | cons c cs =>
      simp only [leadsWith, Bool.and_eq_true, decide_eq_true_eq] at h
      obtain ⟨q, hq⟩ := ih h.2
      exact ⟨q, by rw [h.1, hq]; rfl⟩

theorem strFind_of_leadsWith {hay needle : List Char} (h : leadsWith needle hay = true) :
    Document.strFind hay needle = some 0 := by
  cases hay <;> simp [Document.strFind, h]

theorem strFind_cons_not {c : Char} {rest needle : List Char}
    (h : ¬ leadsWith needle (c :: rest) = true) :
    Document.strFind (c :: rest) needle =
      (Document.strFind rest needle).map (fun off => off + c.utf8Size) := by
  simp [Document.strFind, h]

theorem strFind_some_occurs {hay needle : List Char} {n : Nat}
    (h : Document.strFind hay needle = some n) : occursIn needle hay := by
  induction hay generalizing n with
  | nil =>
    by_cases hl : leadsWith needle [] = true
    · obtain ⟨q, hq⟩ := leadsWith_eq hl
      exact ⟨[], q, hq⟩
    · simp [Document.strFind, hl] at h
  | cons c rest ih =>
    by_cases hl : leadsWith needle (c :: rest) = true
    · obtain ⟨q, hq⟩ := leadsWith_eq hl
      exact ⟨[], q, hq⟩
    · rw [strFind_cons_not hl, Option.map_eq_some'] at h
      obtain ⟨n', hn', _⟩ := h
      obtain ⟨p, q, hpq⟩ := ih hn'
      exact ⟨c :: p, q, by rw [hpq]; rfl⟩

theorem occurs_strFind_isSome {needle hay : List Char} (h : occursIn needle hay) :
    (Document.strFind hay needle).isSome = true := by
  obtain ⟨p, q, rfl⟩ := h
  induction p with
  | nil =>
    have hl : leadsWith needle ([] ++ needle ++ q) = true := by
      simpa using leadsWith_append needle q
    rw [strFind_of_leadsWith hl]
    rfl
  | cons c p ih =>
    simp only [List.cons_append]
    by_cases hl : leadsWith needle (c :: (p ++ needle ++ q)) = true
    · rw [strFind_of_leadsWith hl]
      rfl
    · rw [strFind_cons_not hl]
      obtain ⟨m, hm⟩ := Option.isSome_iff_exists.mp (by simpa using ih)
      simp only [List.append_assoc] at hm ⊢
      rw [hm]
      rfl

theorem takeBytes_takeWhile (l : List Char) (p : Char → Bool) :
    takeBytes (strLen (l.takeWhile p)) l = l.takeWhile p := by
  have h := takeBytes_strLen (l.takeWhile p) (l.dropWhile p)
  rwa [List.takeWhile_append_dropWhile] at h

theorem nl_not_mem_takeWhile (l : List Char) :
    '\n' ∉ l.takeWhile (fun c => c ≠ '\n') := by
  intro h
  have := List.mem_takeWhile_imp h
  simp at this

theorem findSlice_no_nl (text : List Char) (cursor : Pos) :
    '\n' ∉ Document.findSlice text cursor := by
  intro h
  simp only [Document.findSlice, takeBytes_takeWhile] at h
  exact nl_not_mem_takeWhile _ (mem_dropBytes h)

/-- C6: (a) a successful `find` only ever matches inside the searched
slice of the cursor's row, which contains no newline — a match never
crosses a newline boundary; (b) if the needle does not occur in the
cursor's row (cursor at column 0), `find` returns `none` whatever the
requested count; (c) the interpreter treats an empty needle or a `none`
result of `FindInCurrentLine` as a silent no-op: the instruction is
consumed and nothing else changes (in particular no error is raised). -/
theorem C6_find_line_local_miss_noop :
    (∀ (d : Document) (cursor : Pos) (needle : List Char) (count x : Nat),
      d.find cursor needle count = some x →
      occursIn needle (Document.findSlice d.text cursor) ∧
      '\n' ∉ Document.findSlice d.text cursor) ∧
    (∀ (d : Document) (y : Int) (needle : List Char) (count : Nat),
      ¬ occursIn needle (Document.findSlice d.text ⟨0, y⟩) →
      d.find ⟨0, y⟩ needle count = none) ∧
    (∀ (e : EditorState) (s : DocState) (fs : Fs) (needle : List Char)
       (eow : Bool) (count : Nat) (rest : List Instruction),
      e.type_command_buffer = [] → e.type_buffer = [] →
      e.instructions = .FindInCurrentLine needle eow count :: rest →
      (needle = [] ∨ e.doc.find e.cursor needle count = none) →
      EditorState.apply e s fs = ({ e with instructions := rest }, s, fs, .Render)) := by
  refine ⟨?_, ?_, ?_⟩
  · intro d cursor needle count x h
    refine ⟨?_, findSlice_no_nl d.text cursor⟩
    simp only [Document.find] at h
    cases hf : Document.strFind (Document.findSlice d.text cursor) needle with
    | none => rw [hf] at h; simp at h
    | some bp => exact strFind_some_occurs hf
  · intro d y needle count hno
    simp only [Document.find]
    cases hf : Document.strFind (Document.findSlice d.text ⟨0, y⟩) needle with
    | none => rfl
    | some bp => exact absurd (strFind_some_occurs hf) hno
  · intro e s fs needle eow count rest hcb htb hins hmiss
    obtain ⟨doc, cursor, offset, sel, ins, tb, tcb, lp, ext, th, ft, cct⟩ := e
    simp only at hcb htb hins
    subst hcb htb hins
    rcases hmiss with hmiss | hmiss
    · subst hmiss
      simp [EditorState.apply, EditorState.applyInstruction]
    · simp only at hmiss
      simp [EditorState.apply, EditorState.applyInstruction, hmiss]

/-- C6 (witness): on the document "abc" with needle "zz" (absent from
the only line), `find` misses and the `FindInCurrentLine` step is a
silent no-op. -/
theorem C6_witness :
    EditorState.apply c6Editor docState0 [] =
      ({ c6Editor with instructions := [.Delete] }, docState0, [], .Render) :=
  C6_find_line_local_miss_noop.2.2 c6Editor docState0 [] ['z', 'z'] false 1 [.Delete]
    rfl rfl rfl (Or.inr (by decide))

-- -----------------------------------------------------------------------------
--   - Line-structure lemmas (shared by C3 and C5) -
-- -----------------------------------------------------------------------------

theorem nlCount_cons (c : Char) (l : List Char) :
    nlCount (c :: l) = (if c = '\n' then 1 else 0) + nlCount l := by
  by_cases hc : c = '\n' <;> simp [nlCount, List.filter_cons, hc, Nat.add_comm]

theorem nlCount_eq_zero {l : List Char} (h : '\n' ∉ l) : nlCount l = 0 := by
  simp only [nlCount, List.length_eq_zero]
  rw [List.filter_eq_nil_iff]
  intro a ha hae
  exact h ((by simpa using hae : a = '\n') ▸ ha)

theorem strLen_flatten (ls : List (List Char)) : strLen ls.flatten = (ls.map strLen).sum := by
  induction ls with
  | nil => simp [strLen]
  | cons l ls ih => simp [strLen_append, ih]

theorem splitInclusive_eq_nil_iff (cs : List Char) : splitInclusive cs = [] ↔ cs = [] := by
  cases cs with
  | nil => simp [splitInclusive]
  | cons c rest =>
    simp only [iff_false, List.cons_ne_nil]
    intro h
    by_cases hc : c = '\n'
    · simp [splitInclusive, hc] at h
    · simp only [splitInclusive, hc, if_false] at h
      cases hsi : splitInclusive rest with
      | nil => rw [hsi] at h; simp at h
      | cons l ls => rw [hsi] at h; simp at h

theorem flatten_take_splitInclusive (cs : List Char) :
    ∀ y, ((splitInclusive cs).take y).flatten = takeLines y cs := by
  induction cs with
  | nil => intro y; cases y <;> simp [splitInclusive, takeLines]
  | cons c rest ih =>
    intro y
    by_cases hc : c = '\n'
    · subst hc
      cases y with
      | zero => simp [takeLines]
      | succ y =>
        have hs : splitInclusive ('\n' :: rest) = ['\n'] :: splitInclusive rest := by
          simp [splitInclusive]
        have ht : takeLines (y + 1) ('\n' :: rest) = '\n' :: takeLines y rest := by
          simp [takeLines]
        rw [hs, ht, List.take_succ_cons, List.flatten_cons, ih y]
        rfl
    · cases hsi : splitInclusive rest with
      | nil =>
        have hrest : rest = [] := (splitInclusive_eq_nil_iff rest).mp hsi
        subst hrest
        cases y with
        | zero => simp [takeLines]
        | succ y =>
          have hs : splitInclusive (c :: []) = [[c]] := by simp [splitInclusive, hc]
          rw [hs]
          cases y <;> simp [takeLines, hc]
      | cons l ls =>
        cases y with
        | zero => simp [takeLines]
        | succ y =>
          have hs : splitInclusive (c :: rest) = (c :: l) :: ls := by
            simp [splitInclusive, hc, hsi]
          rw [hs]
          simp only [List.take_succ_cons, List.flatten_cons]
          have ihy := ih (y + 1)
          rw [hsi] at ihy
          simp only [List.take_succ_cons, List.flatten_cons] at ihy
          simp only [takeLines, hc, if_false]
          rw [← ihy]
          simp

theorem lineStart_eq (text : List Char) (y : Nat) :
    (((splitInclusive text).map strLen).take y).sum = strLen (takeLines y text) := by
  rw [← flatten_take_splitInclusive text y, strLen_flatten, List.map_take]

theorem takeLines_append_dropLines (y : Nat) (cs : List Char) :
    takeLines y cs ++ dropLines y cs = cs := by
  induction cs generalizing y with
  | nil => cases y <;> simp [takeLines, dropLines]
  | cons c rest ih =>
    cases y with
    | zero => simp [takeLines, dropLines]
    | succ y =>
      by_cases hc : c = '\n'
      · simp [takeLines, dropLines, hc, ih y]
      · simp [takeLines, dropLines, hc, ih (y + 1)]

theorem dropBytes_takeLines (text : List Char) (y : Nat) :
    dropBytes (strLen (takeLines y text)) text = dropLines y text := by
  have h := dropBytes_strLen (takeLines y text) (dropLines y text)
  rwa [takeLines_append_dropLines] at h

/-- `Document::byte_offset` in terms of the character-level line
splitters. -/
theorem byte_offset_eq (text : List Char) (pos : Pos) :
    Document.byte_offset text pos =
      if pos.x = 0 then strLen (takeLines pos.y.toNat text)
      else strLen (takeLines pos.y.toNat text) +
        Document.byte_offset.widthWalk pos.x (lineAt text pos.y.toNat) 0 0 := by
  simp only [Document.byte_offset, lineStart_eq, dropBytes_takeLines, lineAt]

theorem nl_takeLines (y : Nat) (cs : List Char) (h : y ≤ nlCount cs) :
    nlCount (takeLines y cs) = y := by
  induction cs generalizing y with
  | nil =>
    have h0 : nlCount ([] : List Char) = 0 := by simp [nlCount]
    rw [h0] at h
    interval_cases y
    simp [takeLines, nlCount]
  | cons c rest ih =>
    cases y with
    | zero => simp [takeLines, nlCount]
    | succ y =>
      by_cases hc : c = '\n'
      · subst hc
        have h' : y ≤ nlCount rest := by rw [nlCount_cons] at h; simp at h; omega
        simp [takeLines, nlCount_cons, ih y h', Nat.add_comm]
      · have h' : y + 1 ≤ nlCount rest := by rw [nlCount_cons, if_neg hc] at h; omega
        simp [takeLines, hc, nlCount_cons, ih (y + 1) h']

theorem takeLines_ends_nl (y : Nat) (cs : List Char) (hy : 0 < y) (h : y ≤ nlCount cs) :
    ∃ a, takeLines y cs = a ++ ['\n'] := by
  induction cs generalizing y with
  | nil =>
    have h0 : nlCount ([] : List Char) = 0 := by simp [nlCount]
    rw [h0] at h
    omega
  | cons c rest ih =>
    cases y with
    | zero => omega
    | succ y =>
      by_cases hc : c = '\n'
      · subst hc
        rcases Nat.eq_zero_or_pos y with h0 | hpos
        · subst h0
          exact ⟨[], by simp [takeLines]⟩
        · have h' : y ≤ nlCount rest := by rw [nlCount_cons] at h; simp at h; omega
          obtain ⟨a, ha⟩ := ih y hpos h'
          exact ⟨'\n' :: a, by simp [takeLines, ha]⟩
      · have h' : y + 1 ≤ nlCount rest := by rw [nlCount_cons, if_neg hc] at h; omega
        obtain ⟨a, ha⟩ := ih (y + 1) (Nat.succ_pos y) h'
        exact ⟨c :: a, by simp [takeLines, hc, ha]⟩

theorem takeWhile_append_of_all {p : Char → Bool} {u : List Char}
    (h : ∀ a ∈ u, p a = true) (v : List Char) :
    (u ++ v).takeWhile p = u ++ v.takeWhile p := by
  induction u with
  | nil => simp
  | cons c u ih =>
    have hc : p c = true := h c (List.mem_cons_self c u)
    simp only [List.cons_append, List.takeWhile_cons, hc, if_true]
    rw [ih (fun a ha => h a (List.mem_cons_of_mem c ha))]

/-- The cursor-walk of `byte_offset` always stops on a character
boundary: its result is the byte length of some prefix of the line. -/
theorem widthWalk_shape (posx : Int) :
    ∀ (line : List Char) (i x : Nat),
      ∃ k ≤ line.length,
        Document.byte_offset.widthWalk posx line i x = i + strLen (line.take k) := by
  intro line
  induction line with
  | nil =>
    intro i x
    exact ⟨0, Nat.le_refl 0, by simp [Document.byte_offset.widthWalk, strLen]⟩
  | cons c rest ih =>
    intro i x
    by_cases hstop : posx ≤ ((x + charWidth c : Nat) : Int)
    · refine ⟨1, by simp, ?_⟩
      simp only [Document.byte_offset.widthWalk]
      rw [if_pos hstop]
      simp [strLen]
    · obtain ⟨k, hk, hw⟩ := ih (i + c.utf8Size) (x + charWidth c)
      refine ⟨k + 1, by simpa using hk, ?_⟩
      simp only [Document.byte_offset.widthWalk]
      rw [if_neg hstop, hw, List.take_succ_cons, strLen_cons]
      omega

/-- When the target column is the display width of a prefix of the
line, the cursor-walk stops exactly at a prefix of that display
width. -/
theorem widthWalk_spec (posx : Nat) :
    ∀ (line : List Char) (m i x0 : Nat), m ≤ line.length →
      x0 + strWidth (line.take m) = posx → x0 < posx →
      ∃ k, k ≤ m ∧
        Document.byte_offset.widthWalk (posx : Int) line i x0 = i + strLen (line.take k) ∧
        x0 + strWidth (line.take k) = posx := by
  intro line
  induction line with
  | nil =>
    intro m i x0 hm hsum hlt
    simp only [List.length_nil, Nat.le_zero] at hm
    subst hm
    simp [strWidth] at hsum
    omega
  | cons c rest ih =>
    intro m i x0 hm hsum hlt
    cases m with
    | zero =>
      simp only [List.take_zero] at hsum
      simp [strWidth] at hsum
      omega
    | succ m =>
      rw [List.take_succ_cons, strWidth_cons] at hsum
      by_cases hstop : (posx : Int) ≤ ((x0 + charWidth c : Nat) : Int)
      · refine ⟨1, by omega, ?_, ?_⟩
        · simp only [Document.byte_offset.widthWalk]
          rw [if_pos hstop]
          simp [strLen]
        · have hge : posx ≤ x0 + charWidth c := by exact_mod_cast hstop
          rw [List.take_succ_cons, List.take_zero, strWidth_cons]
          have hz : strWidth ([] : List Char) = 0 := by simp [strWidth]
          omega
      · have hlt2 : x0 + charWidth c < posx := by
          have h := hstop
          push_neg at h
          exact_mod_cast h
        have hm' : m ≤ rest.length := by simpa using hm
        have hsum' : (x0 + charWidth c) + strWidth (rest.take m) = posx := by omega
        obtain ⟨k, hk, hwalk, hwidth⟩ := ih m (i + c.utf8Size) (x0 + charWidth c) hm' hsum' hlt2
        refine ⟨k + 1, by omega, ?_, ?_⟩
        · simp only [Document.byte_offset.widthWalk]
          rw [if_neg hstop, hwalk, List.take_succ_cons, strLen_cons]
          omega
        · rw [List.take_succ_cons, strWidth_cons]
          omega

-- -----------------------------------------------------------------------------
--   - C3: byte_offset round-trip -
-- -----------------------------------------------------------------------------

/-- C3 (counterexample): on the document "漢x" (a double-width CJK
character followed by 'x', total line width 3), position (column 1,
row 0) is within the document, but `byte_offset` lands just past the
double-width character, and re-deriving the position gives display
column 2, not 1. -/
theorem C3_counterexample :
    1 < strWidth (lineAt c3Text 0) ∧
    Document.byte_offset c3Text ⟨1, 0⟩ = 3 ∧
    rowOfOffset c3Text (Document.byte_offset c3Text ⟨1, 0⟩) = 0 ∧
    colOfOffset c3Text (Document.byte_offset c3Text ⟨1, 0⟩) = 2 ∧
    colOfOffset c3Text (Document.byte_offset c3Text ⟨1, 0⟩) ≠ 1 := by
  decide

/-- C3 (amended): the round-trip holds for positions whose column lies
on a character boundary of its row — i.e. `pos.x` is the display width
of some prefix of row `y`'s characters (which is every valid column
when all characters of the row are width 1): for such positions,
counting newlines up to `byte_offset(P)` recovers the row and summing
display widths from the last newline recovers the column. -/
theorem C3_roundtrip_on_boundaries (text : List Char) (y m : Nat)
    (hy : y ≤ nlCount text) (hm : m ≤ (lineAt text y).length) :
    rowOfOffset text
        (Document.byte_offset text ⟨(strWidth ((lineAt text y).take m) : Int), (y : Int)⟩) = y ∧
    colOfOffset text
        (Document.byte_offset text ⟨(strWidth ((lineAt text y).take m) : Int), (y : Int)⟩)
      = strWidth ((lineAt text y).take m) := by
  have hytn : ((y : Int)).toNat = y := Int.toNat_natCast y
  -- byte_offset lands at the end of a newline-free prefix of row y
  have hoff : ∃ k, k ≤ (lineAt text y).length ∧
      Document.byte_offset text ⟨(strWidth ((lineAt text y).take m) : Int), (y : Int)⟩
        = strLen (takeLines y text ++ (lineAt text y).take k) ∧
      strWidth ((lineAt text y).take k) = strWidth ((lineAt text y).take m) := by
    by_cases hx : strWidth ((lineAt text y).take m) = 0
    · refine ⟨0, Nat.zero_le _, ?_, ?_⟩
      · rw [byte_offset_eq]
        simp [hx, hytn, strLen_append, strLen]
      · rw [List.take_zero, hx]
        simp [strWidth]
    · obtain ⟨k, hk, hwalk, hwidth⟩ :=
        widthWalk_spec (strWidth ((lineAt text y).take m)) (lineAt text y) m 0 0 hm
          (by omega) (by omega)
      refine ⟨k, Nat.le_trans hk hm, ?_, by omega⟩
      rw [byte_offset_eq]
      have hxne : ¬ ((strWidth ((lineAt text y).take m) : Int) = 0) := by
        exact_mod_cast hx
      simp only [hxne, if_false, hytn]
      rw [hwalk, strLen_append]
      omega
  obtain ⟨k, hk, hoffeq, hweq⟩ := hoff
  set A := takeLines y text with hA
  set B := (lineAt text y).take k with hB
  -- decompose the text around the prefix A ++ B
  have hnlB : '\n' ∉ B := fun hmem =>
    nl_not_mem_takeWhile (dropLines y text) (List.mem_of_mem_take hmem)
  have htext : text = (A ++ B) ++ ((lineAt text y).drop k ++
      (dropLines y text).dropWhile (fun c => c ≠ '\n')) := by
    conv_lhs => rw [← takeLines_append_dropLines y text]
    conv_lhs =>
      rw [← List.takeWhile_append_dropWhile (p := fun c => c ≠ '\n') (l := dropLines y text)]
    rw [← hA]
    rw [show (dropLines y text).takeWhile (fun c => c ≠ '\n') = lineAt text y from rfl]
    conv_lhs => rw [← List.take_append_drop k (lineAt text y), ← hB]
    simp [List.append_assoc]
  have htake : takeBytes (strLen (A ++ B)) text = A ++ B := by
    conv_lhs => rw [htext]
    exact takeBytes_strLen _ _
  constructor
  · -- row
    rw [hoffeq]
    unfold rowOfOffset
    rw [htake, nlCount_append, nl_takeLines y text hy, nlCount_eq_zero hnlB]
    omega
  · -- column
    rw [hoffeq]
    unfold colOfOffset
    rw [htake, ← hweq]
    rw [List.reverse_append]
    have hrevB : ∀ a ∈ B.reverse, (fun c => decide (c ≠ '\n')) a = true := by
      intro a ha
      have : a ∈ B := List.mem_reverse.mp ha
      simp only [decide_eq_true_eq]
      intro hEq
      exact hnlB (hEq ▸ this)
    rw [takeWhile_append_of_all hrevB]
    have hAnil : A.reverse.takeWhile (fun c => c ≠ '\n') = [] := by
      rcases Nat.eq_zero_or_pos y with h0 | hpos
      · subst h0
        simp [hA, takeLines]
      · obtain ⟨a, ha⟩ := takeLines_ends_nl y text hpos hy
        rw [hA, ha]
        simp
    rw [hAnil, List.append_nil, strWidth_reverse]

-- -----------------------------------------------------------------------------
--   - linesOf structure lemmas (C5) -
-- -----------------------------------------------------------------------------

theorem linesOf_ne_nil (cs : List Char) : linesOf cs ≠ [] := by
  cases cs with
  | nil => simp [linesOf]
  | cons c rest =>
    by_cases hc : c = '\n'
    · simp [linesOf, hc]
    · simp only [linesOf, hc, if_false]
      cases linesOf rest <;> simp

theorem linesOf_cons_of_ne {c : Char} (hc : ¬ c = '\n') (u : List Char) :
    linesOf (c :: u) = (linesOf u).modifyHead (fun l => c :: l) := by
  simp only [linesOf, hc, if_false]
  cases h : linesOf u with
  | nil => exact absurd h (linesOf_ne_nil u)
  | cons l ls => simp [List.modifyHead]

theorem length_linesOf (cs : List Char) : (linesOf cs).length = nlCount cs + 1 := by
  induction cs with
  | nil => simp [linesOf, nlCount]
  | cons c rest ih =>
    by_cases hc : c = '\n'
    · simp [linesOf, hc, nlCount_cons, ih, Nat.add_comm]
    · rw [linesOf_cons_of_ne hc, nlCount_cons, if_neg hc]
      cases h : linesOf rest with
      | nil => exact absurd h (linesOf_ne_nil rest)
      | cons l ls =>
        rw [h] at ih
        simpa [List.modifyHead] using ih

theorem linesOf_no_nl {cs : List Char} (h : '\n' ∉ cs) : linesOf cs = [cs] := by
  induction cs with
  | nil => simp [linesOf]
  | cons c rest ih =>
    have hc : ¬ c = '\n' := fun hEq => h (hEq ▸ List.mem_cons_self c rest)
    have hrest : '\n' ∉ rest := fun hm => h (List.mem_cons_of_mem c hm)
    rw [linesOf_cons_of_ne hc, ih hrest]
    simp [List.modifyHead]

theorem modifyHead_nil_append (l : List (List Char)) :
    l.modifyHead (fun h => [] ++ h) = l := by
  cases l <;> simp [List.modifyHead]

/-- Splitting on newlines distributes over append: the last line of `a`
glues onto the first line of `b`, all other lines survive verbatim. -/
theorem linesOf_append (a b : List Char) :
    ∃ front last, linesOf a = front ++ [last] ∧
      linesOf (a ++ b) = front ++ (linesOf b).modifyHead (fun h => last ++ h) := by
  induction a with
  | nil =>
    refine ⟨[], [], by simp [linesOf], ?_⟩
    rw [List.nil_append]
    exact (modifyHead_nil_append (linesOf b)).symm
  | cons c a ih =>
    obtain ⟨front, last, hsplit, happ⟩ := ih
    by_cases hc : c = '\n'
    · subst hc
      refine ⟨[] :: front, last, ?_, ?_⟩
      · simp [linesOf, hsplit]
      · simp [linesOf, happ]
    · cases front with
      | nil =>
        refine ⟨[], c :: last, ?_, ?_⟩
        · rw [linesOf_cons_of_ne hc, hsplit]
          simp [List.modifyHead]
        · rw [List.cons_append, linesOf_cons_of_ne hc, happ]
          cases hlb : linesOf b with
          | nil => exact absurd hlb (linesOf_ne_nil b)
          | cons hb tb => simp [List.modifyHead]
      | cons f0 fr =>
        refine ⟨(c :: f0) :: fr, last, ?_, ?_⟩
        · rw [linesOf_cons_of_ne hc, hsplit]
          simp [List.modifyHead]
        · rw [List.cons_append, linesOf_cons_of_ne hc, happ]
          simp [List.modifyHead]

/-- Removing a newline-free segment from the middle of a text leaves
every line other than the spliced one untouched, and the number of
lines unchanged. -/
theorem linesOf_splice (pre seg suf : List Char) (hseg : '\n' ∉ seg) :
    (linesOf (pre ++ seg ++ suf)).length = (linesOf (pre ++ suf)).length ∧
    ∀ j, j ≠ nlCount pre →
      (linesOf (pre ++ seg ++ suf)).getD j [] = (linesOf (pre ++ suf)).getD j [] := by
  obtain ⟨front, last, hsplit, happ⟩ := linesOf_append pre (seg ++ suf)
  obtain ⟨front2, last2, hsplit2, happ2⟩ := linesOf_append pre suf
  have hfl : front2 = front ∧ last2 = last := by
    have h := hsplit2.symm.trans hsplit
    have hlen : front2.length = front.length := by
      have := congrArg List.length h
      simpa using this
    obtain ⟨h1, h2⟩ := List.append_inj h hlen
    exact ⟨h1, by simpa using h2⟩
  obtain ⟨he1, he2⟩ := hfl
  rw [he1, he2] at happ2
  obtain ⟨frontS, lastS, hsplitS, happS⟩ := linesOf_append seg suf
  have hsegOne : linesOf seg = [seg] := linesOf_no_nl hseg
  have hfS : frontS = [] ∧ lastS = seg := by
    rw [hsegOne] at hsplitS
    cases frontS with
    | nil => simpa using hsplitS.symm
    | cons x xs =>
      have := congrArg List.length hsplitS
      simp at this
  obtain ⟨rfl, rfl⟩ := hfS
  rw [List.nil_append] at happS
  have hfrontlen : front.length = nlCount pre := by
    have := congrArg List.length hsplit
    rw [length_linesOf] at this
    simp at this
    omega
  rw [List.append_assoc, happ, happS, happ2]
  cases hlb : linesOf suf with
  | nil => exact absurd hlb (linesOf_ne_nil suf)
  | cons hb tb =>
    simp only [List.modifyHead]
    constructor
    · simp
    · intro j hj
      rcases Nat.lt_or_ge j front.length with hlt | hge
      · rw [List.getD_append _ _ _ _ hlt, List.getD_append _ _ _ _ hlt]
      · have hgt : front.length < j := by omega
        rw [List.getD_append_right _ _ _ _ hge, List.getD_append_right _ _ _ _ hge]
        have hpos : 1 ≤ j - front.length := by omega
        cases hd : j - front.length with
        | zero => omega
        | succ n => simp [List.getD_cons_succ, List.append_assoc]

/-- `takeLines` beyond the last newline is the whole string. -/
theorem takeLines_all (y : Nat) (cs : List Char) (h : nlCount cs < y) :
    takeLines y cs = cs := by
  induction cs generalizing y with
  | nil => cases y <;> simp [takeLines]
  | cons c rest ih =>
    cases y with
    | zero => rw [nlCount_cons] at h; omega
    | succ y =>
      by_cases hc : c = '\n'
      · have h' : nlCount rest < y := by rw [nlCount_cons, if_pos hc] at h; omega
        simp [takeLines, hc, ih y h']
      · have h' : nlCount rest < y + 1 := by rw [nlCount_cons, if_neg hc] at h; omega
        simp [takeLines, hc, ih (y + 1) h']

theorem dropLines_nil (y : Nat) (cs : List Char) (h : nlCount cs < y) :
    dropLines y cs = [] := by
  have h1 := takeLines_append_dropLines y cs
  rw [takeLines_all y cs h] at h1
  have h2 := congrArg List.length h1
  simp at h2
  exact h2

/-- The span-walk of `get_byte_offset` either falls through (`0`) or
stops at the end of a newline-free prefix of the remaining text. -/
theorem spanEnd_shape :
    ∀ (cs : List Char) (i w : Nat),
      Document.spanEnd cs i w = 0 ∨
      ∃ k ≤ cs.length, Document.spanEnd cs i w = i + strLen (cs.take k) ∧ '\n' ∉ cs.take k := by
  intro cs
  induction cs with
  | nil => intro i w; left; simp [Document.spanEnd]
  | cons c rest ih =>
    intro i w
    by_cases hc : c = '\n'
    · right
      refine ⟨0, Nat.zero_le _, ?_, by simp⟩
      simp [Document.spanEnd, hc, strLen]
    · by_cases hw : w - charWidth c = 0
      · right
        refine ⟨0, Nat.zero_le _, ?_, by simp⟩
        simp [Document.spanEnd, hc, hw, strLen]
      · rcases ih (i + c.utf8Size) (w - charWidth c) with h0 | ⟨k, hk, heq, hnl⟩
        · left
          simpa [Document.spanEnd, hc, hw] using h0
        · right
          refine ⟨k + 1, by simpa using hk, ?_, ?_⟩
          · simp only [Document.spanEnd, hc, hw, if_false]
            rw [heq, List.take_succ_cons, strLen_cons]
            omega
          · rw [List.take_succ_cons]
            intro hmem
            rcases List.mem_cons.mp hmem with hEq | hmem2
            · exact hc hEq.symm
            · exact hnl hmem2

/-- `byte_offset` always lands at the end of a newline-free prefix of
the addressed row. -/
theorem byte_offset_decomp (text : List Char) (pos : Pos) :
    ∃ k ≤ (lineAt text pos.y.toNat).length,
      Document.byte_offset text pos
        = strLen (takeLines pos.y.toNat text ++ (lineAt text pos.y.toNat).take k) := by
  rw [byte_offset_eq]
  by_cases hx : pos.x = 0
  · exact ⟨0, Nat.zero_le _, by simp [hx, strLen_append, strLen]⟩
  · obtain ⟨k, hk, hw⟩ := widthWalk_shape pos.x (lineAt text pos.y.toNat) 0 0
    refine ⟨k, hk, ?_⟩
    rw [if_neg hx, hw, strLen_append]
    omega

/-- One row of `Document::delete` changes at most line `pos.y` of the
text: every other line, and the number of lines, is preserved. -/
theorem deleteRow_lines (text : List Char) (pos : Pos) (width : Nat) :
    (linesOf (Document.deleteRow text pos width)).length = (linesOf text).length ∧
    ∀ j, j ≠ pos.y.toNat →
      (linesOf (Document.deleteRow text pos width)).getD j [] = (linesOf text).getD j [] := by
  obtain ⟨k, hk, hstart⟩ := byte_offset_decomp text pos
  set y := pos.y.toNat with hy
  set A := takeLines y text with hA
  set B := (lineAt text y).take k with hB
  have hnlB : '\n' ∉ B := fun hmem =>
    nl_not_mem_takeWhile (dropLines y text) (List.mem_of_mem_take hmem)
  have htext : text = (A ++ B) ++ ((lineAt text y).drop k ++
      (dropLines y text).dropWhile (fun c => c ≠ '\n')) := by
    conv_lhs => rw [← takeLines_append_dropLines y text]
    conv_lhs =>
      rw [← List.takeWhile_append_dropWhile (p := fun c => c ≠ '\n') (l := dropLines y text)]
    rw [← hA]
    rw [show (dropLines y text).takeWhile (fun c => c ≠ '\n') = lineAt text y from rfl]
    conv_lhs => rw [← List.take_append_drop k (lineAt text y), ← hB]
    simp [List.append_assoc]
  set R := (lineAt text y).drop k ++ (dropLines y text).dropWhile (fun c => c ≠ '\n') with hR
  -- the text after the span start
  have hdropStart : dropBytes (Document.byte_offset text pos) text = R := by
    rw [hstart]
    conv_lhs => rw [htext]
    exact dropBytes_strLen _ _
  have htakeStart : takeBytes (Document.byte_offset text pos) text = A ++ B := by
    rw [hstart]
    conv_lhs => rw [htext]
    exact takeBytes_strLen _ _
  -- case split: does the row exist?
  rcases le_or_lt y (nlCount text) with hle | hgt
  · have hnlpre : nlCount (A ++ B) = y := by
      rw [nlCount_append, nlCount_eq_zero hnlB, hA, nl_takeLines y text hle]
      omega
    -- the drained span
    rcases spanEnd_shape R 0 width with h0 | ⟨k2, hk2, heq, hnl2⟩
    · -- fall-through: nothing is drained
      have hid : Document.deleteRow text pos width = text := by
        simp only [Document.deleteRow, Document.get_byte_offset]
        rw [hdropStart, h0, Nat.add_zero]
        conv_lhs => rw [htakeStart]
        conv_lhs => rw [show dropBytes (Document.byte_offset text pos) text = R from hdropStart]
        rw [← htext]
      rw [hid]
      exact ⟨rfl, fun j _ => rfl⟩
    · -- a newline-free segment of R is drained
      set seg := R.take k2 with hseg
      have hdrop2 : dropBytes (Document.byte_offset text pos + Document.spanEnd R 0 width) text
          = R.drop k2 := by
        rw [heq, Nat.zero_add, hstart]
        conv_lhs => rw [htext]
        have : R = R.take k2 ++ R.drop k2 := (List.take_append_drop k2 R).symm
        conv_lhs => rw [this]
        rw [← List.append_assoc]
        have hlen : strLen (A ++ B) + strLen (R.take k2)
            = strLen ((A ++ B) ++ R.take k2) := (strLen_append _ _).symm
        rw [hlen]
        exact dropBytes_strLen _ _
      have hres : Document.deleteRow text pos width = (A ++ B) ++ R.drop k2 := by
        simp only [Document.deleteRow, Document.get_byte_offset]
        rw [hdropStart, htakeStart, hdrop2]
      have horig : text = (A ++ B) ++ seg ++ R.drop k2 := by
        rw [hseg, List.append_assoc, List.take_append_drop, ← htext]
      have hsplice := linesOf_splice (A ++ B) seg (R.drop k2)
        (fun hmem => hnl2 (hseg ▸ hmem))
      rw [hnlpre] at hsplice
      constructor
      · rw [hres]
        conv_rhs => rw [horig]
        exact hsplice.1.symm
      · intro j hj
        rw [hres]
        conv_rhs => rw [horig]
        exact (hsplice.2 j hj).symm
  · -- the row is beyond the text: everything is a no-op
    have hlineNil : lineAt text y = [] := by
      rw [lineAt, dropLines_nil y text hgt]
      rfl
    have hRnil : R = [] := by
      rw [hR, hlineNil, dropLines_nil y text hgt]
      simp
    have hid : Document.deleteRow text pos width = text := by
      simp only [Document.deleteRow, Document.get_byte_offset]
      rw [hdropStart, hRnil]
      simp only [Document.spanEnd, Nat.add_zero]
      conv_lhs => rw [htakeStart]
      conv_lhs => rw [show dropBytes (Document.byte_offset text pos) text = R from hdropStart]
      rw [hRnil, List.append_nil]
      conv_rhs => rw [htext, hRnil, List.append_nil]
    rw [hid]
    exact ⟨rfl, fun j _ => rfl⟩

theorem mem_rowRange {y a b : Int} (h : y ∈ Document.rowRange a b) : a ≤ y ∧ y < b := by
  rw [Document.rowRange] at h
  obtain ⟨i, hi, hy⟩ := List.mem_map.mp h
  rw [List.mem_range] at hi
  subst hy
  have h0 : (0 : Int) ≤ (i : Int) := Int.natCast_nonneg i
  have h1 : (i : Int) < ((b - a).toNat : Int) := by exact_mod_cast hi
  have h2 : ((b - a).toNat : Int) = max (b - a) 0 := Int.toNat_eq_max (b - a)
  constructor
  · omega
  · have h3 : (i : Int) < max (b - a) 0 := h2 ▸ h1
    rcases le_or_lt (b - a) 0 with hba | hba
    · rw [max_eq_right hba] at h3
      omega
    · rw [max_eq_left (le_of_lt hba)] at h3
      omega

theorem foldl_deleteRow_lines (fromX : Int) (width : Nat) :
    ∀ (ys : List Int) (text : List Char) (j : Nat),
      (∀ y ∈ ys, j ≠ y.toNat) →
      (linesOf (ys.foldl (fun t y => Document.deleteRow t ⟨fromX, y⟩ width) text)).length
          = (linesOf text).length ∧
      (linesOf (ys.foldl (fun t y => Document.deleteRow t ⟨fromX, y⟩ width) text)).getD j []
          = (linesOf text).getD j [] := by
  intro ys
  induction ys with
  | nil => intro text j h; exact ⟨rfl, rfl⟩
  | cons y ys ih =>
    intro text j h
    simp only [List.foldl_cons]
    have hstep := deleteRow_lines text ⟨fromX, y⟩ width
    have hj : j ≠ (⟨fromX, y⟩ : Pos).y.toNat := h y (List.mem_cons_self y ys)
    obtain ⟨ih1, ih2⟩ := ih (Document.deleteRow text ⟨fromX, y⟩ width) j
      (fun y' hy' => h y' (List.mem_cons_of_mem y hy'))
    exact ⟨ih1.trans hstep.1, ih2.trans (hstep.2 j hj)⟩

-- -----------------------------------------------------------------------------
--   - C5: delete(region) is row-local -
-- -----------------------------------------------------------------------------

/-- C5: `delete(region)` preserves every row outside the region's row
interval verbatim, and the row count; and on the spec's 5-line example
(`abcdefg/1234567/abcdefg/1234567/abcdefg`, deleting the 2-wide-by-3-tall
region at column 1, row 1) it removes exactly the width-bounded span on
each of the three affected rows, yielding
`abcdefg/14567/adefg/14567/abcdefg`. -/
theorem C5_delete_region_rows :
    (∀ (d : Document) (region : Region) (j : Nat),
      0 ≤ region.rFrom.y →
      j < region.rFrom.y.toNat ∨ region.rTo.y.toNat ≤ j →
      (linesOf (d.delete region).text).length = (linesOf d.text).length ∧
      (linesOf (d.delete region).text).getD j [] = (linesOf d.text).getD j []) ∧
    (c5Doc.delete c5Region).text = c5Expected := by
  constructor
  · intro d region j h0 hj
    simp only [Document.delete]
    apply foldl_deleteRow_lines
    intro y hy
    have hmem := mem_rowRange hy
    omega
  · decide

/-- C5 (witness): instantiating the row-preservation half on the
example document and region — row 0 (outside the 2-by-3 region at
(1,1)) is untouched. -/
theorem C5_witness :
    (linesOf (c5Doc.delete c5Region).text).length = (linesOf c5Doc.text).length ∧
    (linesOf (c5Doc.delete c5Region).text).getD 0 [] = (linesOf c5Doc.text).getD 0 [] :=
  C5_delete_region_rows.1 c5Doc c5Region 0 (by decide) (Or.inl (by decide))

/-- C3 (witness for the amended theorem): on "ab\ncd", row 1, the
column after one character round-trips. -/
theorem C3_witness :
    rowOfOffset "ab\ncd".toList
        (Document.byte_offset "ab\ncd".toList
          ⟨(strWidth ((lineAt "ab\ncd".toList 1).take 1) : Int), ((1 : Nat) : Int)⟩) = 1 ∧
    colOfOffset "ab\ncd".toList
        (Document.byte_offset "ab\ncd".toList
          ⟨(strWidth ((lineAt "ab\ncd".toList 1).take 1) : Int), ((1 : Nat) : Int)⟩)
      = strWidth ((lineAt "ab\ncd".toList 1).take 1) :=
  C3_roundtrip_on_boundaries "ab\ncd".toList 1 1 (by decide) (by decide)

end Mimic
